import Mathlib

/-!
Verification of the tket2 quantum-circuit optimiser core against its
natural-language specification.

The development shallowly embeds the Rust source:
* `src/passes/taso/qtz_circuit.rs` — ECC JSON ingestion (`map_op`);
* `src/portmatching/matcher.rs` — pattern-match construction, error
  classification, matcher construction, serialisation, path handling;
* `src/optimiser/taso.rs` — the TASO driver (single-threaded loop and
  multi-threaded coordinator).

Circuits are represented by abstract identifiers (`Nat`); the hash, cost
and successor (rewriter + strategy) functions are parameters, as the
driver treats them opaquely.  A Rust `panic!` is modelled as `Option.none`
(or a dedicated `panicked` constructor) since it aborts the computation
with no error value.
-/

namespace Tket2

/-! ### ECC ingestion: `map_op` (src/passes/taso/qtz_circuit.rs, lines 42-58) -/

/-- The tket2 operation enum (`crate::T2Op`, src/ops.rs), including the
angle-addition operation used by the ECC decoder (present in the crate
version `qtz_circuit.rs` is compiled against; cf. `Op::AngleAdd` in
src/circuit/operation.rs). -/
inductive T2Op where
  | H | CX | T | S | X | Y | Z | Tdg | Sdg | ZZMax | Measure | RzF64 | TK1
  | AngleAdd
deriving DecidableEq, Repr

/-- Embeds `map_op` (qtz_circuit.rs:42-58).  The Rust function matches the
opstring against eleven literals and `panic!`s on anything else; the panic
is modelled as `none`. -/
def map_op (opstr : String) : Option T2Op :=
  if opstr = "h" then some T2Op.H
  else if opstr = "cx" then some T2Op.CX
  else if opstr = "t" then some T2Op.T
  else if opstr = "s" then some T2Op.S
  else if opstr = "x" then some T2Op.X
  else if opstr = "y" then some T2Op.Y
  else if opstr = "z" then some T2Op.Z
  else if opstr = "tdg" then some T2Op.Tdg
  else if opstr = "sdg" then some T2Op.Sdg
  else if opstr = "rz" then some T2Op.RzF64
  else if opstr = "add" then some T2Op.AngleAdd
  else none

/-- The closed set of opstrings recognised by the ECC decoder. -/
def recognisedOpstrs : List String :=
  ["h", "cx", "t", "s", "x", "y", "z", "tdg", "sdg", "rz", "add"]

/-! ### Match-construction error types (src/portmatching/matcher.rs) -/

/-- Boundary errors of `SiblingSubgraph` construction (external `hugr`
crate, `InvalidSubgraphBoundary`).  The matcher's `From` impl
distinguishes only the `DisconnectedBoundaryPort` variant; the remaining
variants of the external enum are abstracted into `otherBoundary`. -/
inductive InvalidSubgraphBoundary where
  | disconnectedBoundaryPort (node port : Nat)
  | otherBoundary (code : Nat)
deriving DecidableEq, Repr

/-- Subgraph-construction errors (external `hugr` crate,
`InvalidSubgraph`). -/
inductive InvalidSubgraph where
  | notConvex
  | emptySubgraph
  | noSharedParent
  | invalidBoundary (b : InvalidSubgraphBoundary)
deriving DecidableEq, Repr

/-- `InvalidPatternMatch` (matcher.rs:341-359). -/
inductive InvalidPatternMatch where
  | notConvex
  | matchNotFound
  | invalidSubcircuit
  | emptyMatch
deriving DecidableEq, Repr

/-- Embeds `impl From<InvalidSubgraph> for InvalidPatternMatch`
(matcher.rs:375-390): `NotConvex` and
`InvalidBoundary(DisconnectedBoundaryPort(..))` both become `NotConvex`;
`EmptySubgraph` becomes `EmptyMatch`; `NoSharedParent` and every other
boundary error become `InvalidSubcircuit`. -/
def invalidSubgraphToPatternMatch : InvalidSubgraph → InvalidPatternMatch
  | InvalidSubgraph.notConvex => InvalidPatternMatch.notConvex
  | InvalidSubgraph.invalidBoundary
      (InvalidSubgraphBoundary.disconnectedBoundaryPort _ _) =>
      InvalidPatternMatch.notConvex
  | InvalidSubgraph.emptySubgraph => InvalidPatternMatch.emptyMatch
  | InvalidSubgraph.noSharedParent => InvalidPatternMatch.invalidSubcircuit
  | InvalidSubgraph.invalidBoundary (InvalidSubgraphBoundary.otherBoundary _) =>
      InvalidPatternMatch.invalidSubcircuit

/-- Outcome of `handle_match_error` (matcher.rs:442-453): a successful
match is kept, a `NotConvex` error is silently dropped (the function
returns `None`), and any other error `panic!`s. -/
inductive MatchOutcome (α : Type) where
  | kept (m : α)
  | dropped
  | panicked
deriving DecidableEq, Repr

/-- Embeds `handle_match_error` (matcher.rs:442-453). -/
def handle_match_error {α : Type} :
    Except InvalidPatternMatch α → MatchOutcome α
  | Except.ok m => MatchOutcome.kept m
  | Except.error InvalidPatternMatch.notConvex => MatchOutcome.dropped
  | Except.error InvalidPatternMatch.matchNotFound => MatchOutcome.panicked
  | Except.error InvalidPatternMatch.invalidSubcircuit => MatchOutcome.panicked
  | Except.error InvalidPatternMatch.emptyMatch => MatchOutcome.panicked

/-! ### Matcher model: `find_matches` (src/portmatching/matcher.rs, lines 246-279)

`PatternMatch::try_from_root_match_with_checker` (matcher.rs:115-139) calls
`CircuitPattern::get_match_map` (declared in the repository's
`portmatching/pattern.rs`, which is not under src/) and then builds a
`SiblingSubgraph` via the external `hugr` crate's
`try_new_with_checker` on the boundary ports derived from the match map.
Both are abstracted into a `MatcherModel`: `emit` is the automaton run at
a root, `getMatchMap` the pattern's match-map reconstruction, `mapNodes`
the host-node set induced by a match map, `trySubgraph` the subgraph
construction on that node set, and `isConvex` the host's convexity
predicate. -/

/-- A convex pattern match: pattern id plus the match root in the host
(`PatternMatch`, matcher.rs:70-78; the `position` subcircuit is derived
from these via the match map). -/
structure PatternMatch (P N : Type) where
  pattern : P
  root : N
deriving DecidableEq, Repr

/-- Modelled from the spec: the matching context of a host circuit. The
automaton (`ScopeAutomaton::run`, external `portmatching` crate), the
pattern's `get_match_map` (repository file `portmatching/pattern.rs`,
absent from src/) and the `hugr` crate's subgraph constructor and
convexity checker appear as opaque functions. -/
structure MatcherModel (P N MM : Type) where
  emit : N → List P
  getMatchMap : P → N → Option MM
  mapNodes : MM → List N
  trySubgraph : List N → Except InvalidSubgraph Unit
  isConvex : List N → Bool

/-- Embeds `PatternMatch::try_from_root_match_with_checker`
(matcher.rs:115-139) composed with `try_from_io_with_checker`
(matcher.rs:171-185): a failed `get_match_map` (or pattern lookup) gives
`MatchNotFound`; a failed subgraph construction is converted through the
`From<InvalidSubgraph>` impl; otherwise the match is built. -/
def tryFromRootMatch {P N MM : Type} (M : MatcherModel P N MM)
    (root : N) (pid : P) : Except InvalidPatternMatch (PatternMatch P N) :=
  match M.getMatchMap pid root with
  | none => Except.error InvalidPatternMatch.matchNotFound
  | some mm =>
    match M.trySubgraph (M.mapNodes mm) with
    | Except.error e => Except.error (invalidSubgraphToPatternMatch e)
    | Except.ok _ => Except.ok ⟨pid, root⟩

/-- Embeds the `filter_map (handle_match_error ...)` over the pattern ids
emitted by the automaton in `find_rooted_matches` (matcher.rs:256-279).
A `panic!` aborts the whole traversal, hence the `Option` result. -/
def collectMatches {P N MM : Type} (M : MatcherModel P N MM) (root : N) :
    List P → Option (List (PatternMatch P N))
  | [] => some []
  | pid :: rest =>
    match handle_match_error (tryFromRootMatch M root pid) with
    | MatchOutcome.kept m => (collectMatches M root rest).map (m :: ·)
    | MatchOutcome.dropped => collectMatches M root rest
    | MatchOutcome.panicked => none

/-- Embeds `PatternMatcher::find_matches` (matcher.rs:246-253): the
rooted matches of every command node, concatenated in order. -/
def findMatches {P N MM : Type} (M : MatcherModel P N MM) :
    List N → Option (List (PatternMatch P N))
  | [] => some []
  | root :: rest =>
    match collectMatches M root (M.emit root), findMatches M rest with
    | some ms, some ms' => some (ms ++ ms')
    | _, _ => none

/-! ### Matcher construction: `from_patterns` (matcher.rs:225-244) -/

/-- A matcher value: the automaton (abstracted as the list of line
patterns fed to `LineBuilder`) plus the stored patterns
(`PatternMatcher`, matcher.rs:212-215). -/
structure LineMatcher (P L : Type) where
  linePatterns : List L
  patterns : List P
deriving DecidableEq, Repr

/-- Result of `PatternMatcher::from_patterns`: the function's Rust
signature is infallible (`-> Self`); the only failure mode is the
`expect` panic, so there is no error constructor. -/
inductive FromPatternsResult (P L : Type) where
  | ok (m : LineMatcher P L)
  | panicked (msg : String)
deriving DecidableEq, Repr

/-- The line decomposition of each pattern
(`p.pattern.try_into_line_pattern(compatible_offsets)`, external
`portmatching` crate), collected as in `from_patterns`; the first
failure propagates. -/
def collectLinePatterns {P L : Type} (decomp : P → Option L) :
    List P → Option (List L)
  | [] => some []
  | p :: rest =>
    match decomp p with
    | none => none
    | some l => (collectLinePatterns decomp rest).map (l :: ·)

/-- Embeds `PatternMatcher::from_patterns` (matcher.rs:227-244): every
pattern is converted to a line pattern with
`.expect("Failed to express pattern as line pattern")`, so a
non-decomposable pattern panics; otherwise the automaton is built and
the matcher returned. -/
def from_patterns {P L : Type} (decomp : P → Option L) (ps : List P) :
    FromPatternsResult P L :=
  match collectLinePatterns decomp ps with
  | none => FromPatternsResult.panicked "Failed to express pattern as line pattern"
  | some ls => FromPatternsResult.ok ⟨ls, ps⟩

/-! ### Matcher serialisation (matcher.rs:295-309)

`save_binary_io` writes `rmp_serde::encode::write(writer, &self)`;
`load_binary_io` reads `rmp_serde::decode::from_read(reader)`.  The
MessagePack codec is external; it appears as an `encode`/`decode`
function pair. -/

/-- Embeds `PatternMatcher::save_binary_io` (matcher.rs:295-301): the
bytes written are exactly the encoding of the matcher. -/
def save_binary_write {M B : Type} (encode : M → B) (m : M) : B := encode m

/-- Embeds `PatternMatcher::load_binary_io` (matcher.rs:306-309): the
matcher is exactly the decoding of the bytes, errors propagated. -/
def load_binary_read {M B E : Type} (decode : B → Except E M) (b : B) :
    Except E M := decode b

/-! ### `save_binary` path handling (matcher.rs:320-329)

`save_binary` builds `PathBuf::from(name)`, calls
`file_name.set_extension("bin")`, creates that file, writes the matcher
and returns the path.  Rust `std::path` is external; it is modelled from
its documentation with a path as its list of components (each a list of
characters): the extension of a file name is the part after the last
`.` provided a nonempty stem precedes it, and `set_extension` replaces
or appends it, doing nothing when the path has no file name. -/

/-- Splits a REVERSED file name at its last dot: returns (reversed
extension, reversed stem) when the name has the shape `stem.ext` with
nonempty stem, as Rust `Path::extension` requires. -/
def revSplitExt : List Char → Option (List Char × List Char)
  | [] => none
  | c :: rest =>
    if c = '.' then (if rest.isEmpty then none else some ([], rest))
    else (revSplitExt rest).map (fun pr => (c :: pr.1, pr.2))

/-- Rust `Path::extension` on a file name. -/
def extensionOf (f : List Char) : Option (List Char) :=
  (revSplitExt f.reverse).map (fun pr => pr.1.reverse)

/-- Rust `Path::file_stem` on a file name. -/
def stemOf (f : List Char) : List Char :=
  match revSplitExt f.reverse with
  | some pr => pr.2.reverse
  | none => f

/-- A path, as its list of components. -/
abbrev RPath := List (List Char)

/-- Rust `Path::file_name`: the last component, unless it is empty,
`.` or `..`. -/
def pathFileName (p : RPath) : Option (List Char) :=
  match p.getLast? with
  | none => none
  | some c => if c = [] ∨ c = ['.'] ∨ c = ['.', '.'] then none else some c

/-- Rust `Path::extension`. -/
def pathExtension (p : RPath) : Option (List Char) :=
  (pathFileName p).bind extensionOf

/-- Rust `PathBuf::set_extension` (with a nonempty extension argument):
no-op when the path has no file name, else the last component becomes
`stem.ext`. -/
def setExtension (p : RPath) (ext : List Char) : RPath :=
  match pathFileName p with
  | none => p
  | some f => p.dropLast ++ [stemOf f ++ '.' :: ext]

/-- Embeds `PatternMatcher::save_binary` (matcher.rs:320-329): the path
of the file created, written to, and returned on success. -/
def save_binary_path (name : RPath) : RPath :=
  setExtension name ['b', 'i', 'n']

/-! ### TASO driver (src/optimiser/taso.rs)

Circuits are abstract identifiers (`Nat`).  The driver's collaborators —
`circuit_hash`, the cost function, and the composite
`strategy.apply_rewrites(rewriter.get_rewrites(c), c)` — are parameters
in a `TasoCtx`. -/

/-- The driver's collaborators: content hash, cost function, and the
successor enumeration (rewriter composed with strategy). -/
structure TasoCtx where
  hash : Nat → Nat
  cost : Nat → Nat
  succs : Nat → List Nat

/-- A priority-queue entry (`hugr_pqueue::Entry`): hash, cost and
circuit.  The queue computes `cost` with the driver's cost function and
`hash` with `circuit_hash` on push. -/
structure Entry where
  hash : Nat
  cost : Nat
  circ : Nat
deriving DecidableEq, Repr

/-- Cost order on queue entries. -/
def entryLE (a b : Entry) : Prop := a.cost ≤ b.cost

instance : DecidableRel entryLE := fun a b => Nat.decLe a.cost b.cost

instance : IsTotal Entry entryLE := ⟨fun a b => Nat.le_total a.cost b.cost⟩

instance : IsTrans Entry entryLE := ⟨fun _ _ _ => Nat.le_trans⟩

/-- Modelled from the spec: `HugrPQ` (repository file
`optimiser/taso/hugr_pqueue.rs`, absent from src/) is a min-cost-first
priority queue; it is modelled as a cost-sorted list.  `push` inserts
preserving the order, `pop` takes the head (a cheapest entry), and
`truncate k` keeps the `k` cheapest entries. -/
def pqPush (e : Entry) (pq : List Entry) : List Entry :=
  List.orderedInsert entryLE e pq

/-- `PRIORITY_QUEUE_CAPACITY` (taso.rs:165 and taso.rs:235). -/
def PRIORITY_QUEUE_CAPACITY : Nat := 10000

/-- Driver state of the single-threaded loop (taso.rs:152-221): the
priority queue, the seen-hash set, and the best circuit and cost so
far. -/
structure TasoState where
  pq : List Entry
  seen : Finset Nat
  bestCirc : Nat
  bestCost : Nat
deriving DecidableEq

/-- Embeds the per-successor body of the loop (taso.rs:178-195): skip the
successor when its hash is already in `seen` (taso.rs:190-192), else
push it with its hash (taso.rs:193) and insert the hash
(taso.rs:194). -/
def processSucc (ctx : TasoCtx) (st : List Entry × Finset Nat) (c : Nat) :
    List Entry × Finset Nat :=
  let h := ctx.hash c
  if h ∈ st.2 then st
  else (pqPush ⟨h, ctx.cost c, c⟩ st.1, insert h st.2)

/-- The successor expansion of a popped circuit (the `for` loop,
taso.rs:178-195). -/
def tasoExpand (ctx : TasoCtx) (c : Nat) (pq : List Entry)
    (seen : Finset Nat) : List Entry × Finset Nat :=
  (ctx.succs c).foldl (processSucc ctx) (pq, seen)

/-- The haircut (taso.rs:197-200): when the queue length has reached the
capacity, truncate it to half the capacity, keeping the cheapest
half. -/
def haircut (pq : List Entry) : List Entry :=
  if PRIORITY_QUEUE_CAPACITY ≤ pq.length then
    pq.take (PRIORITY_QUEUE_CAPACITY / 2)
  else pq

/-- One iteration of the single-threaded loop (taso.rs:170-207): pop the
cheapest entry, update the best circuit on strict improvement
(taso.rs:171-175), expand its successors, then apply the haircut.  On an
empty queue the loop exits (state unchanged). -/
def tasoIter (ctx : TasoCtx) (s : TasoState) : TasoState :=
  match s.pq with
  | [] => s
  | e :: rest =>
    let best :=
      if e.cost < s.bestCost then (e.circ, e.cost)
      else (s.bestCirc, s.bestCost)
    let expanded := tasoExpand ctx e.circ rest s.seen
    ⟨haircut expanded.1, expanded.2, best.1, best.2⟩

/-- The driver's initial state (taso.rs:157-167): best is the input
circuit, its hash seeds `seen`, and the input circuit is pushed. -/
def tasoInit (ctx : TasoCtx) (c0 : Nat) : TasoState :=
  ⟨[⟨ctx.hash c0, ctx.cost c0, c0⟩], {ctx.hash c0}, c0, ctx.cost c0⟩

/-- `n` iterations of the single-threaded loop (a timeout or queue
exhaustion simply stops the iteration earlier). -/
def tasoRun (ctx : TasoCtx) : Nat → TasoState → TasoState
  | 0, s => s
  | n + 1, s => tasoRun ctx n (tasoIter ctx s)

/-- The hashes popped (processed) along `n` iterations. -/
def poppedTrace (ctx : TasoCtx) : Nat → TasoState → List Nat
  | 0, _ => []
  | n + 1, s =>
    match s.pq with
    | [] => []
    | e :: _ => e.hash :: poppedTrace ctx n (tasoIter ctx s)

/-- Coordinator state of the multi-threaded loop (taso.rs:245-251): the
authoritative seen set and the best circuit and cost so far. -/
structure CoordState where
  seen : Finset Nat
  bestCirc : Nat
  bestCost : Nat
deriving DecidableEq

/-- Embeds the per-item body of the coordinator's batch loop
(taso.rs:300-320): `seen_hashes.insert` returning `false` (hash already
present) skips the item; otherwise the hash is inserted, the cost
computed, and the best updated on strict improvement. -/
def coordItem (ctx : TasoCtx) (s : CoordState) (item : Nat × Nat) :
    CoordState :=
  if item.1 ∈ s.seen then s
  else
    let seen' := insert item.1 s.seen
    let cost := ctx.cost item.2
    if cost < s.bestCost then ⟨seen', item.2, cost⟩
    else ⟨seen', s.bestCirc, s.bestCost⟩

/-- Embeds one `result`-batch round of the coordinator (taso.rs:296-325):
every received `(hash, circ)` item is processed with `coordItem`, and
then the WHOLE received batch is sent back into the `work` channel
(`tx_work.send(hashed_circs)`, taso.rs:322).  The second component is
the batch sent to the workers. -/
def coordBatch (ctx : TasoCtx) (s : CoordState) (batch : List (Nat × Nat)) :
    CoordState × List (Nat × Nat) :=
  (batch.foldl (coordItem ctx) s, batch)

/-- The coordinator's initial state (taso.rs:245-251). -/
def coordInit (ctx : TasoCtx) (c0 : Nat) : CoordState :=
  ⟨{ctx.hash c0}, c0, ctx.cost c0⟩

/-- The coordinator over a sequence of received batches. -/
def coordRun (ctx : TasoCtx) (batches : List (List (Nat × Nat)))
    (s : CoordState) : CoordState :=
  batches.foldl (fun s b => (coordBatch ctx s b).1) s

/-! ### Demonstration instances used by witnesses -/

/-- A tiny matching context: root 0 emits pattern 0, whose match map is 7,
inducing host nodes [7]; subgraph construction succeeds exactly on the
convex set [7]. -/
def demoModel : MatcherModel Nat Nat Nat where
  emit := fun n => if n == 0 then [0] else []
  getMatchMap := fun pid root => if pid == 0 && root == 0 then some 7 else none
  mapNodes := fun mm => [mm]
  trySubgraph := fun ns =>
    if ns == [7] then Except.ok () else Except.error InvalidSubgraph.notConvex
  isConvex := fun ns => ns == [7]

/-- A matching context whose only candidate match is non-convex. -/
def demoModelNC : MatcherModel Nat Nat Nat where
  emit := fun _ => [0]
  getMatchMap := fun _ _ => some 8
  mapNodes := fun mm => [mm]
  trySubgraph := fun ns =>
    if ns == [7] then Except.ok () else Except.error InvalidSubgraph.notConvex
  isConvex := fun ns => ns == [7]

/-- A matching context whose subgraph construction reports an empty
subgraph (a fatal error after the automaton emitted a pattern id). -/
def demoModelEmpty : MatcherModel Nat Nat Nat where
  emit := fun _ => [0]
  getMatchMap := fun _ _ => some 7
  mapNodes := fun _ => []
  trySubgraph := fun _ => Except.error InvalidSubgraph.emptySubgraph
  isConvex := fun _ => false

/-- A line decomposition on `Bool` patterns: `true` decomposes, `false`
does not. -/
def demoDecomp : Bool → Option Nat := fun b => if b then some 0 else none

/-- A toy matcher encoder for the serialisation witness. -/
def demoEncode : Nat → List Nat := fun n => [n]

/-- A toy matcher decoder for the serialisation witness. -/
def demoDecode : List Nat → Except Nat Nat := fun b =>
  match b with
  | [n] => Except.ok n
  | _ => Except.error 0

/-! ### C9 — ECC opstring recognition -/

/-- C9: the ECC decoder's `map_op` recognises exactly the closed opstring
set h, cx, t, s, x, y, z, tdg, sdg, rz, add, mapping each to its gate
kind; every other opstring is fatal (a panic, modelled as `none`), so
decoding succeeds iff the opstring is in the closed set. -/
theorem ecc_map_op_closed_set :
    map_op "h" = some T2Op.H ∧ map_op "cx" = some T2Op.CX ∧
    map_op "t" = some T2Op.T ∧ map_op "s" = some T2Op.S ∧
    map_op "x" = some T2Op.X ∧ map_op "y" = some T2Op.Y ∧
    map_op "z" = some T2Op.Z ∧ map_op "tdg" = some T2Op.Tdg ∧
    map_op "sdg" = some T2Op.Sdg ∧ map_op "rz" = some T2Op.RzF64 ∧
    map_op "add" = some T2Op.AngleAdd ∧
    ∀ s : String, (map_op s).isSome ↔ s ∈ recognisedOpstrs := by
  refine ⟨rfl, rfl, rfl, rfl, rfl, rfl, rfl, rfl, rfl, rfl, rfl, ?_⟩
  intro s
  constructor
  · intro h
    by_contra hmem
    simp only [recognisedOpstrs, List.mem_cons, List.not_mem_nil, or_false,
      not_or] at hmem
    obtain ⟨h1, h2, h3, h4, h5, h6, h7, h8, h9, h10, h11⟩ := hmem
    simp only [map_op] at h
    rw [if_neg h1, if_neg h2, if_neg h3, if_neg h4, if_neg h5, if_neg h6,
      if_neg h7, if_neg h8, if_neg h9, if_neg h10, if_neg h11] at h
    simp at h
  · intro hmem
    simp only [recognisedOpstrs, List.mem_cons, List.not_mem_nil,
      or_false] at hmem
    rcases hmem with rfl | rfl | rfl | rfl | rfl | rfl | rfl | rfl | rfl |
      rfl | rfl <;> decide

/-! ### C4 — error classification of candidate-match construction -/

/-- C4 counterexample: a boundary error (`DisconnectedBoundaryPort`) is
classified as `NotConvex`, not as `InvalidSubcircuit`, contradicting the
claim that `NotConvex` arises exactly from `InvalidSubgraph::NotConvex`
and that any boundary error surfaces as `InvalidSubcircuit`. -/
theorem boundary_error_classification_cex :
    invalidSubgraphToPatternMatch
        (InvalidSubgraph.invalidBoundary
          (InvalidSubgraphBoundary.disconnectedBoundaryPort 0 0)) =
      InvalidPatternMatch.notConvex ∧
    invalidSubgraphToPatternMatch
        (InvalidSubgraph.invalidBoundary
          (InvalidSubgraphBoundary.disconnectedBoundaryPort 0 0)) ≠
      InvalidPatternMatch.invalidSubcircuit :=
  ⟨rfl, by decide⟩

/-- C4 (amended): `NotConvex` surfaces for `InvalidSubgraph::NotConvex`
AND for the boundary error `DisconnectedBoundaryPort`; `EmptySubgraph`
surfaces as `EmptyMatch`; `NoSharedParent` and every other boundary
error surface as `InvalidSubcircuit`. -/
theorem boundary_error_classification :
    invalidSubgraphToPatternMatch InvalidSubgraph.notConvex =
      InvalidPatternMatch.notConvex ∧
    (∀ n p, invalidSubgraphToPatternMatch
        (InvalidSubgraph.invalidBoundary
          (InvalidSubgraphBoundary.disconnectedBoundaryPort n p)) =
      InvalidPatternMatch.notConvex) ∧
    invalidSubgraphToPatternMatch InvalidSubgraph.emptySubgraph =
      InvalidPatternMatch.emptyMatch ∧
    invalidSubgraphToPatternMatch InvalidSubgraph.noSharedParent =
      InvalidPatternMatch.invalidSubcircuit ∧
    (∀ b : InvalidSubgraphBoundary,
      (∀ n p, b ≠ InvalidSubgraphBoundary.disconnectedBoundaryPort n p) →
      invalidSubgraphToPatternMatch (InvalidSubgraph.invalidBoundary b) =
        InvalidPatternMatch.invalidSubcircuit) := by
  refine ⟨rfl, fun n p => rfl, rfl, rfl, ?_⟩
  intro b hb
  cases b with
  | disconnectedBoundaryPort n p => exact absurd rfl (hb n p)
  | otherBoundary c => rfl

/-- C4 witness: the amended classification evaluated on a boundary error
that is not a disconnected boundary port. -/
theorem boundary_error_classification_witness :
    invalidSubgraphToPatternMatch
        (InvalidSubgraph.invalidBoundary (InvalidSubgraphBoundary.otherBoundary 3)) =
      InvalidPatternMatch.invalidSubcircuit :=
  boundary_error_classification.2.2.2.2
    (InvalidSubgraphBoundary.otherBoundary 3)
    (fun _ _ h => InvalidSubgraphBoundary.noConfusion h)

/-! ### C5 — only NotConvex is droppable -/

/-- C5: after the automaton has emitted a pattern id, a failed match
construction is silently dropped iff the error is `NotConvex`;
`MatchNotFound`, `EmptyMatch` and `InvalidSubcircuit` panic, aborting
the whole match collection. -/
theorem match_error_drop_iff_notConvex :
    (∀ (α : Type) (e : InvalidPatternMatch),
      handle_match_error (α := α) (Except.error e) = MatchOutcome.dropped ↔
        e = InvalidPatternMatch.notConvex) ∧
    (∀ α : Type,
      handle_match_error (α := α)
          (Except.error InvalidPatternMatch.matchNotFound) =
        MatchOutcome.panicked ∧
      handle_match_error (α := α)
          (Except.error InvalidPatternMatch.emptyMatch) =
        MatchOutcome.panicked ∧
      handle_match_error (α := α)
          (Except.error InvalidPatternMatch.invalidSubcircuit) =
        MatchOutcome.panicked) ∧
    (∀ (α : Type) (m : α),
      handle_match_error (Except.ok m) = MatchOutcome.kept m) ∧
    (∀ (P N MM : Type) (M : MatcherModel P N MM) (root : N) (pid : P)
      (rest : List P),
      (tryFromRootMatch M root pid =
          Except.error InvalidPatternMatch.notConvex →
        collectMatches M root (pid :: rest) = collectMatches M root rest) ∧
      (∀ e, tryFromRootMatch M root pid = Except.error e →
        e ≠ InvalidPatternMatch.notConvex →
        collectMatches M root (pid :: rest) = none)) := by
  refine ⟨?_, fun α => ⟨rfl, rfl, rfl⟩, fun α m => rfl, ?_⟩
  · intro α e
    cases e <;> simp [handle_match_error]
  · intro P N MM M root pid rest
    constructor
    · intro h
      simp [collectMatches, h, handle_match_error]
    · intro e h hne
      cases e with
      | notConvex => exact absurd rfl hne
      | matchNotFound => simp [collectMatches, h, handle_match_error]
      | invalidSubcircuit => simp [collectMatches, h, handle_match_error]
      | emptyMatch => simp [collectMatches, h, handle_match_error]

/-- C5 witness: a non-convex candidate is dropped (the collection
continues) while an empty-match candidate aborts the collection. -/
theorem match_error_drop_iff_notConvex_witness :
    collectMatches demoModelNC 0 [0] = collectMatches demoModelNC 0 [] ∧
    collectMatches demoModelEmpty 0 [0] = none := by
  constructor
  · exact (match_error_drop_iff_notConvex.2.2.2 Nat Nat Nat demoModelNC 0 0 []).1 rfl
  · exact (match_error_drop_iff_notConvex.2.2.2 Nat Nat Nat demoModelEmpty 0 0 []).2
      InvalidPatternMatch.emptyMatch rfl (by decide)

/-! ### C3 — from_patterns on non-line-decomposable patterns -/

/-- C3 counterexample: on an input containing a pattern that cannot be
line-decomposed, `from_patterns` does not return an `IncompatiblePattern`
error (its Rust signature is infallible and no such error exists in the
code); it panics via
`expect("Failed to express pattern as line pattern")`. -/
theorem from_patterns_incompatible_cex :
    demoDecomp false = none ∧
    from_patterns demoDecomp [false] =
      FromPatternsResult.panicked "Failed to express pattern as line pattern" :=
  ⟨rfl, rfl⟩

/-- Helper: one failed line decomposition makes the collection fail. -/
theorem collectLinePatterns_eq_none {P L : Type} (decomp : P → Option L) :
    ∀ ps : List P, (∃ p ∈ ps, decomp p = none) →
      collectLinePatterns decomp ps = none := by
  intro ps ⟨p, hp, hnone⟩
  induction ps with
  | nil => cases hp
  | cons q qs ih =>
    rcases List.mem_cons.mp hp with hq | hq
    · rw [hq] at hnone
      simp [collectLinePatterns, hnone]
    · cases hd : decomp q <;> simp [collectLinePatterns, hd, ih hq]

/-- Helper: if every pattern decomposes, the collection succeeds. -/
theorem collectLinePatterns_isSome {P L : Type} (decomp : P → Option L) :
    ∀ ps : List P, (∀ p ∈ ps, (decomp p).isSome) →
      ∃ ls, collectLinePatterns decomp ps = some ls := by
  intro ps
  induction ps with
  | nil => exact fun _ => ⟨[], rfl⟩
  | cons q qs ih =>
    intro hall
    obtain ⟨l, hl⟩ :=
      Option.isSome_iff_exists.mp (hall q (List.mem_cons_self q qs))
    obtain ⟨ls, hls⟩ := ih (fun p hp => hall p (List.mem_cons_of_mem q hp))
    exact ⟨l :: ls, by simp [collectLinePatterns, hl, hls]⟩

/-- C3 (amended): `from_patterns` panics (message
"Failed to express pattern as line pattern") whenever some pattern has no
line decomposition, and constructs a matcher holding exactly the given
patterns when every pattern is line-decomposable. -/
theorem from_patterns_panics_on_incompatible :
    ∀ (P L : Type) (decomp : P → Option L) (ps : List P),
      ((∃ p ∈ ps, decomp p = none) →
        from_patterns decomp ps =
          FromPatternsResult.panicked
            "Failed to express pattern as line pattern") ∧
      ((∀ p ∈ ps, (decomp p).isSome) →
        ∃ ls, from_patterns decomp ps = FromPatternsResult.ok ⟨ls, ps⟩) := by
  intro P L decomp ps
  constructor
  · intro hex
    simp [from_patterns, collectLinePatterns_eq_none decomp ps hex]
  · intro hall
    obtain ⟨ls, hls⟩ := collectLinePatterns_isSome decomp ps hall
    exact ⟨ls, by simp [from_patterns, hls]⟩

/-- C3 witness: the amended statement evaluated on a non-decomposable
pattern list and on a decomposable one. -/
theorem from_patterns_panics_on_incompatible_witness :
    from_patterns demoDecomp [false] =
      FromPatternsResult.panicked
        "Failed to express pattern as line pattern" ∧
    ∃ ls, from_patterns demoDecomp [true] = FromPatternsResult.ok ⟨ls, [true]⟩ := by
  constructor
  · exact (from_patterns_panics_on_incompatible Bool Nat demoDecomp [false]).1
      ⟨false, by decide, rfl⟩
  · exact (from_patterns_panics_on_incompatible Bool Nat demoDecomp [true]).2
      (by decide)

/-! ### C2 — matcher soundness -/

/-- Helper: a match produced by `handle_match_error` as `kept` arose from
a successful `tryFromRootMatch`, which requires a match map and a
successful subgraph construction on its induced nodes. -/
theorem tryFromRootMatch_kept {P N MM : Type} (M : MatcherModel P N MM)
    (root : N) (pid : P) (m : PatternMatch P N)
    (h : handle_match_error (tryFromRootMatch M root pid) =
      MatchOutcome.kept m) :
    m.pattern = pid ∧ m.root = root ∧
      ∃ mm, M.getMatchMap pid root = some mm ∧
        M.trySubgraph (M.mapNodes mm) = Except.ok () := by
  unfold tryFromRootMatch at h
  split at h
  · simp [handle_match_error] at h
  next mm hmap =>
    split at h
    next e hsub =>
      cases he : invalidSubgraphToPatternMatch e <;>
        rw [he] at h <;> simp [handle_match_error] at h
    next u hsub =>
      simp only [handle_match_error, MatchOutcome.kept.injEq] at h
      subst h
      exact ⟨rfl, rfl, mm, hmap, by cases u; exact hsub⟩

/-- Helper: soundness of the per-root match collection. -/
theorem collectMatches_sound {P N MM : Type} (M : MatcherModel P N MM)
    (root : N) :
    ∀ (pids : List P) (ms : List (PatternMatch P N)),
      collectMatches M root pids = some ms →
      ∀ m ∈ ms, ∃ mm, M.getMatchMap m.pattern m.root = some mm ∧
        M.trySubgraph (M.mapNodes mm) = Except.ok () := by
  intro pids
  induction pids with
  | nil =>
    intro ms h m hm
    simp [collectMatches] at h
    subst h
    cases hm
  | cons pid rest ih =>
    intro ms h m hm
    unfold collectMatches at h
    cases hh : handle_match_error (tryFromRootMatch M root pid) with
    | kept m0 =>
      rw [hh] at h
      cases hrest : collectMatches M root rest with
      | none => rw [hrest] at h; simp at h
      | some ms' =>
        rw [hrest] at h
        simp at h
        rw [← h] at hm
        rcases List.mem_cons.mp hm with rfl | hm'
        · obtain ⟨hp, hr, mm, hmap, hsub⟩ :=
            tryFromRootMatch_kept M root pid m hh
          exact ⟨mm, by rw [hp, hr]; exact hmap, by assumption⟩
        · exact ih ms' hrest m hm'
    | dropped =>
      rw [hh] at h
      exact ih ms h m hm
    | panicked =>
      rw [hh] at h
      cases h

/-- C2: matcher soundness.  If `find_matches` returns a list of matches
(i.e. does not panic), then for every returned match the pattern's
`get_match_map` at the match root succeeds, and — under the `hugr`
contract that subgraph construction succeeds only on convex node sets —
the host nodes induced by that map form a convex region. -/
theorem matcher_soundness :
    ∀ (P N MM : Type) (M : MatcherModel P N MM) (roots : List N)
      (ms : List (PatternMatch P N)),
      (∀ ns, M.trySubgraph ns = Except.ok () → M.isConvex ns = true) →
      findMatches M roots = some ms →
      ∀ m ∈ ms, ∃ mm, M.getMatchMap m.pattern m.root = some mm ∧
        M.isConvex (M.mapNodes mm) = true := by
  intro P N MM M roots
  induction roots with
  | nil =>
    intro ms hconv h m hm
    simp [findMatches] at h
    subst h
    cases hm
  | cons root rest ih =>
    intro ms hconv h m hm
    unfold findMatches at h
    cases hc : collectMatches M root (M.emit root) with
    | none => rw [hc] at h; cases h
    | some ms1 =>
      rw [hc] at h
      cases hr : findMatches M rest with
      | none => rw [hr] at h; cases h
      | some ms2 =>
        rw [hr] at h
        simp at h
        rw [← h] at hm
        rcases List.mem_append.mp hm with hm1 | hm2
        · obtain ⟨mm, hmap, hsub⟩ := collectMatches_sound M root _ ms1 hc m hm1
          exact ⟨mm, hmap, hconv _ hsub⟩
        · exact ih ms2 hconv hr m hm2

/-- C2 witness: the soundness statement evaluated on the demonstration
matching context, whose `find_matches` yields one match. -/
theorem matcher_soundness_witness :
    ∃ mm, demoModel.getMatchMap (0 : Nat) (0 : Nat) = some mm ∧
      demoModel.isConvex (demoModel.mapNodes mm) = true := by
  have hconv : ∀ ns, demoModel.trySubgraph ns = Except.ok () →
      demoModel.isConvex ns = true := by
    intro ns h
    by_cases hc : ns = [7]
    · subst hc; decide
    · exact absurd h (by simp [demoModel, hc])
  have hfind : findMatches demoModel [0] =
      some [(⟨0, 0⟩ : PatternMatch Nat Nat)] := by decide
  exact matcher_soundness Nat Nat Nat demoModel [0] _ hconv hfind
    (⟨0, 0⟩ : PatternMatch Nat Nat) (List.mem_singleton_self _)

/-! ### C8 — serialisation round-trip -/

/-- C8: for every byte sequence `b` produced by `save_binary_io`
(embedded by `save_binary_write`), loading `b` succeeds, re-serialising
the loaded matcher produces `b` again, and the loaded matcher behaves
identically to the original under any observation (in particular the
same matches in the same order on any host).  The MessagePack codec is
abstracted by an encode/decode pair satisfying the serde round-trip
contract. -/
theorem save_load_round_trip :
    ∀ (M B E : Type) (encode : M → B) (decode : B → Except E M),
      (∀ m, decode (encode m) = Except.ok m) →
      ∀ (b : B) (m : M), b = save_binary_write encode m →
        load_binary_read decode b = Except.ok m ∧
        save_binary_write encode m = b ∧
        ∀ (H R : Type) (run : M → H → R) (host : H) (m' : M),
          load_binary_read decode b = Except.ok m' →
          run m' host = run m host := by
  intro M B E encode decode hrt b m hb
  subst hb
  refine ⟨hrt m, rfl, ?_⟩
  intro H R run host m' hm'
  rw [load_binary_read, save_binary_write, hrt] at hm'
  cases hm'
  rfl

/-- C8 witness: the round trip evaluated on a toy codec at matcher 3. -/
theorem save_load_round_trip_witness :
    load_binary_read demoDecode [3] = Except.ok 3 ∧
    save_binary_write demoEncode 3 = [3] := by
  have h := save_load_round_trip Nat (List Nat) Nat demoEncode demoDecode
    (fun m => rfl) [3] 3 rfl
  exact ⟨h.1, h.2.1⟩

/-! ### C10 — save_binary path extension -/

/-- Helper: when a file name splits at its last dot, the stem part is
nonempty. -/
theorem revSplitExt_stem_ne_nil :
    ∀ (cs : List Char) (pr : List Char × List Char),
      revSplitExt cs = some pr → pr.2 ≠ [] := by
  intro cs
  induction cs with
  | nil => intro pr h; cases h
  | cons c rest ih =>
    intro pr h
    unfold revSplitExt at h
    by_cases hc : c = '.'
    · rw [if_pos hc] at h
      by_cases hr : rest.isEmpty
      · rw [if_pos hr] at h; cases h
      · rw [if_neg hr] at h
        cases h
        simpa [List.isEmpty_iff] using hr
    · rw [if_neg hc] at h
      cases hrec : revSplitExt rest with
      | none => rw [hrec] at h; cases h
      | some q =>
        rw [hrec] at h
        simp at h
        rw [← h]
        exact ih q hrec

/-- Helper: scanning a reversed name whose scanned part contains no dot
finds exactly the last-dot split. -/
theorem revSplitExt_append :
    ∀ (pre st : List Char), '.' ∉ pre → st ≠ [] →
      revSplitExt (pre ++ '.' :: st) = some (pre, st) := by
  intro pre
  induction pre with
  | nil =>
    intro st _ hst
    unfold revSplitExt
    simp [hst, List.isEmpty_iff]
  | cons c cs ih =>
    intro st hdot hst
    have hc : c ≠ '.' := fun h => hdot (h ▸ List.mem_cons_self c cs)
    have hcs : '.' ∉ cs := fun h => hdot (List.mem_cons_of_mem c h)
    show revSplitExt (c :: (cs ++ '.' :: st)) = some (c :: cs, st)
    unfold revSplitExt
    rw [if_neg hc, ih st hcs hst]
    rfl

/-- Helper: the extension of `stem.ext` is `ext` when the stem is
nonempty and the extension contains no dot. -/
theorem extensionOf_append (stem ext : List Char) (hstem : stem ≠ [])
    (hdot : '.' ∉ ext) :
    extensionOf (stem ++ '.' :: ext) = some ext := by
  unfold extensionOf
  have hrev : (stem ++ '.' :: ext).reverse =
      ext.reverse ++ '.' :: stem.reverse := by
    simp
  rw [hrev, revSplitExt_append ext.reverse stem.reverse
    (fun h => hdot (List.mem_reverse.mp h))
    (fun h => hstem (List.reverse_eq_nil_iff.mp h))]
  simp

/-- C10: `save_binary(name)` writes to, and on success returns, the path
`name` with its extension set or replaced by `.bin`; hence whenever the
caller-supplied `name` carries an extension, the created file's
extension is `bin` — never the caller's extension (unless it was already
`bin`). -/
theorem save_binary_sets_bin_extension :
    ∀ name : RPath,
      save_binary_path name = setExtension name ['b', 'i', 'n'] ∧
      ∀ e, pathExtension name = some e →
        pathExtension (save_binary_path name) = some ['b', 'i', 'n'] ∧
        (e ≠ ['b', 'i', 'n'] →
          pathExtension (save_binary_path name) ≠ some e) := by
  intro name
  refine ⟨rfl, ?_⟩
  intro e he
  obtain ⟨f, hf, hext⟩ := Option.bind_eq_some.mp he
  obtain ⟨pr, hpr, hpr1⟩ := Option.map_eq_some'.mp hext
  have hstem : stemOf f ≠ [] := by
    unfold stemOf
    rw [hpr]
    exact fun h =>
      revSplitExt_stem_ne_nil f.reverse pr hpr (List.reverse_eq_nil_iff.mp h)
  have hpath : save_binary_path name =
      name.dropLast ++ [stemOf f ++ '.' :: ['b', 'i', 'n']] := by
    unfold save_binary_path setExtension
    rw [hf]
  have hg : pathFileName (name.dropLast ++ [stemOf f ++ '.' :: ['b', 'i', 'n']]) =
      some (stemOf f ++ '.' :: ['b', 'i', 'n']) := by
    have hcond : ¬(stemOf f ++ '.' :: ['b', 'i', 'n'] = [] ∨
        stemOf f ++ '.' :: ['b', 'i', 'n'] = ['.'] ∨
        stemOf f ++ '.' :: ['b', 'i', 'n'] = ['.', '.']) := by
      have hlen : (stemOf f ++ '.' :: ['b', 'i', 'n']).length =
          (stemOf f).length + 4 := by simp
      intro hor
      rcases hor with h | h | h <;> rw [h] at hlen <;> simp at hlen
    simp only [pathFileName, List.getLast?_concat]
    rw [if_neg hcond]
  have hgext : extensionOf (stemOf f ++ '.' :: ['b', 'i', 'n']) =
      some ['b', 'i', 'n'] :=
    extensionOf_append (stemOf f) ['b', 'i', 'n'] hstem (by decide)
  have hres : pathExtension (save_binary_path name) = some ['b', 'i', 'n'] := by
    rw [hpath]
    unfold pathExtension
    rw [hg]
    exact hgext
  refine ⟨hres, ?_⟩
  intro hne heq
  rw [hres] at heq
  exact hne (Option.some.inj heq).symm

/-- C10 witness: saving to the single-component path `foo.json` creates
and returns `foo.bin`. -/
theorem save_binary_sets_bin_extension_witness :
    pathExtension [['f', 'o', 'o', '.', 'j', 's', 'o', 'n']] =
      some ['j', 's', 'o', 'n'] ∧
    pathExtension
        (save_binary_path [['f', 'o', 'o', '.', 'j', 's', 'o', 'n']]) =
      some ['b', 'i', 'n'] := by
  have h1 : pathExtension [['f', 'o', 'o', '.', 'j', 's', 'o', 'n']] =
      some ['j', 's', 'o', 'n'] := by decide
  exact ⟨h1,
    ((save_binary_sets_bin_extension [['f', 'o', 'o', '.', 'j', 's', 'o', 'n']]).2
      ['j', 's', 'o', 'n'] h1).1⟩

/-! ### TASO driver invariants: helper lemmas -/

/-- The hashes of the queued entries, in queue order. -/
def pqHashes (pq : List Entry) : List Nat := pq.map Entry.hash

/-- The dedup invariant of the single-threaded loop: queued hashes are
pairwise distinct and every queued hash is in `seen`. -/
def DedupInv (s : TasoState) : Prop :=
  (pqHashes s.pq).Nodup ∧ ∀ e ∈ s.pq, e.hash ∈ s.seen

/-- Queue entries well-formed for a context: hash and cost fields are the
ones the queue computes on push. -/
def EntriesWF (ctx : TasoCtx) (pq : List Entry) : Prop :=
  ∀ e ∈ pq, e.hash = ctx.hash e.circ ∧ e.cost = ctx.cost e.circ

/-- Driver state well-formed: entries well-formed and the best cost is
the cost of the best circuit. -/
def StateWF (ctx : TasoCtx) (s : TasoState) : Prop :=
  EntriesWF ctx s.pq ∧ s.bestCost = ctx.cost s.bestCirc

theorem mem_pqPush {e f : Entry} {pq : List Entry} :
    e ∈ pqPush f pq ↔ e = f ∨ e ∈ pq := by
  unfold pqPush
  exact List.mem_orderedInsert entryLE

theorem pqHashes_pqPush_perm (f : Entry) (pq : List Entry) :
    List.Perm (pqHashes (pqPush f pq)) (f.hash :: pqHashes pq) :=
  (List.perm_orderedInsert entryLE f pq).map Entry.hash

/-- The successor fold only grows the seen set. -/
theorem expand_seen_mono (ctx : TasoCtx) :
    ∀ (cs : List Nat) (pq : List Entry) (seen : Finset Nat),
      seen ⊆ (cs.foldl (processSucc ctx) (pq, seen)).2 := by
  intro cs
  induction cs with
  | nil => intro pq seen; exact Finset.Subset.refl seen
  | cons c rest ih =>
    intro pq seen
    rw [List.foldl_cons]
    by_cases hmem : ctx.hash c ∈ seen
    · rw [show processSucc ctx (pq, seen) c = (pq, seen) by
        simp [processSucc, hmem]]
      exact ih pq seen
    · rw [show processSucc ctx (pq, seen) c =
          (pqPush ⟨ctx.hash c, ctx.cost c, c⟩ pq, insert (ctx.hash c) seen) by
        simp [processSucc, hmem]]
      exact Finset.Subset.trans (Finset.subset_insert _ seen) (ih _ _)

/-- Every entry of the expanded queue either was already queued or is a
well-formed fresh push whose hash was not yet seen. -/
theorem expand_mem (ctx : TasoCtx) :
    ∀ (cs : List Nat) (pq : List Entry) (seen : Finset Nat) (e : Entry),
      e ∈ (cs.foldl (processSucc ctx) (pq, seen)).1 →
      e ∈ pq ∨ (e.hash = ctx.hash e.circ ∧ e.cost = ctx.cost e.circ ∧
        e.hash ∉ seen) := by
  intro cs
  induction cs with
  | nil => intro pq seen e h; exact Or.inl h
  | cons c rest ih =>
    intro pq seen e h
    rw [List.foldl_cons] at h
    by_cases hmem : ctx.hash c ∈ seen
    · rw [show processSucc ctx (pq, seen) c = (pq, seen) by
        simp [processSucc, hmem]] at h
      exact ih pq seen e h
    · rw [show processSucc ctx (pq, seen) c =
          (pqPush ⟨ctx.hash c, ctx.cost c, c⟩ pq, insert (ctx.hash c) seen) by
        simp [processSucc, hmem]] at h
      rcases ih _ _ e h with he | ⟨hh, hc, hs⟩
      · rcases mem_pqPush.mp he with rfl | he'
        · exact Or.inr ⟨rfl, rfl, hmem⟩
        · exact Or.inl he'
      · exact Or.inr ⟨hh, hc, fun hin => hs (Finset.mem_insert_of_mem hin)⟩

/-- The successor fold preserves hash distinctness and containment of
queued hashes in the seen set. -/
theorem expand_inv (ctx : TasoCtx) :
    ∀ (cs : List Nat) (pq : List Entry) (seen : Finset Nat),
      (pqHashes pq).Nodup → (∀ e ∈ pq, e.hash ∈ seen) →
      ((pqHashes (cs.foldl (processSucc ctx) (pq, seen)).1).Nodup ∧
        ∀ e ∈ (cs.foldl (processSucc ctx) (pq, seen)).1,
          e.hash ∈ (cs.foldl (processSucc ctx) (pq, seen)).2) := by
  intro cs
  induction cs with
  | nil => intro pq seen h1 h2; exact ⟨h1, h2⟩
  | cons c rest ih =>
    intro pq seen h1 h2
    rw [List.foldl_cons]
    by_cases hmem : ctx.hash c ∈ seen
    · rw [show processSucc ctx (pq, seen) c = (pq, seen) by
        simp [processSucc, hmem]]
      exact ih pq seen h1 h2
    · rw [show processSucc ctx (pq, seen) c =
          (pqPush ⟨ctx.hash c, ctx.cost c, c⟩ pq, insert (ctx.hash c) seen) by
        simp [processSucc, hmem]]
      apply ih
      · refine (pqHashes_pqPush_perm _ pq).nodup_iff.mpr (List.nodup_cons.mpr ⟨?_, h1⟩)
        intro hin
        rcases List.mem_map.mp hin with ⟨e, he, heq⟩
        apply hmem
        show (Entry.mk (ctx.hash c) (ctx.cost c) c).hash ∈ seen
        rw [← heq]
        exact h2 e he
      · intro e he
        rcases mem_pqPush.mp he with rfl | he'
        · exact Finset.mem_insert_self _ _
        · exact Finset.mem_insert_of_mem (h2 e he')

theorem tasoIter_seen_mono (ctx : TasoCtx) (s : TasoState) :
    s.seen ⊆ (tasoIter ctx s).seen := by
  obtain ⟨pq, seen, bc, bco⟩ := s
  cases pq with
  | nil => exact Finset.Subset.refl _
  | cons e rest => exact expand_seen_mono ctx (ctx.succs e.circ) rest seen

theorem tasoIter_pq_mem_cons (ctx : TasoCtx) (e0 : Entry) (rest : List Entry)
    (seen : Finset Nat) (bc bco : Nat) (e : Entry) :
    e ∈ (tasoIter ctx ⟨e0 :: rest, seen, bc, bco⟩).pq →
    e ∈ rest ∨ (e.hash = ctx.hash e.circ ∧ e.cost = ctx.cost e.circ ∧
      e.hash ∉ seen) := by
  intro h
  have h' : e ∈ (tasoExpand ctx e0.circ rest seen).1 := by
    have heq : (tasoIter ctx ⟨e0 :: rest, seen, bc, bco⟩).pq =
        haircut (tasoExpand ctx e0.circ rest seen).1 := rfl
    rw [heq] at h
    unfold haircut at h
    split at h
    · exact List.take_subset _ _ h
    · exact h
  exact expand_mem ctx _ rest seen e h'

theorem tasoIter_pq_mem (ctx : TasoCtx) (s : TasoState) (e : Entry) :
    e ∈ (tasoIter ctx s).pq →
    e ∈ s.pq ∨ (e.hash = ctx.hash e.circ ∧ e.cost = ctx.cost e.circ ∧
      e.hash ∉ s.seen) := by
  obtain ⟨pq, seen, bc, bco⟩ := s
  cases pq with
  | nil => exact fun h => Or.inl h
  | cons e0 rest =>
    intro h
    rcases tasoIter_pq_mem_cons ctx e0 rest seen bc bco e h with he | hfresh
    · exact Or.inl (List.mem_cons_of_mem e0 he)
    · exact Or.inr hfresh

theorem tasoIter_dedupInv (ctx : TasoCtx) (s : TasoState) :
    DedupInv s → DedupInv (tasoIter ctx s) := by
  obtain ⟨pq, seen, bc, bco⟩ := s
  intro ⟨h1, h2⟩
  cases pq with
  | nil => exact ⟨h1, h2⟩
  | cons e0 rest =>
    have h1' : (pqHashes rest).Nodup := (List.nodup_cons.mp h1).2
    have h2' : ∀ e ∈ rest, e.hash ∈ seen :=
      fun e he => h2 e (List.mem_cons_of_mem e0 he)
    obtain ⟨hn, hs⟩ := expand_inv ctx (ctx.succs e0.circ) rest seen h1' h2'
    constructor
    · show (pqHashes (haircut (tasoExpand ctx e0.circ rest seen).1)).Nodup
      unfold haircut
      split
      · rw [pqHashes, List.map_take]
        exact hn.sublist (List.take_sublist _ _)
      · exact hn
    · intro e he
      show e.hash ∈ (tasoExpand ctx e0.circ rest seen).2
      apply hs
      revert he
      show e ∈ haircut (tasoExpand ctx e0.circ rest seen).1 → _
      unfold haircut
      split
      · exact fun he => List.take_subset _ _ he
      · exact fun he => he

/-- Once a hash is in `seen` and off the queue, an iteration keeps it in
`seen` and off the queue. -/
theorem tasoIter_stay_out (ctx : TasoCtx) (s : TasoState) (h : Nat) :
    h ∈ s.seen → h ∉ pqHashes s.pq →
    h ∈ (tasoIter ctx s).seen ∧ h ∉ pqHashes (tasoIter ctx s).pq := by
  intro hs hpq
  refine ⟨tasoIter_seen_mono ctx s hs, ?_⟩
  intro hin
  rcases List.mem_map.mp hin with ⟨e, he, heq⟩
  subst heq
  rcases tasoIter_pq_mem ctx s e he with he' | ⟨_, _, hns⟩
  · exact hpq (List.mem_map_of_mem Entry.hash he')
  · exact hns hs

/-- A hash that is already seen and not queued is never popped again. -/
theorem poppedTrace_out (ctx : TasoCtx) :
    ∀ (n : Nat) (s : TasoState) (h : Nat), h ∈ s.seen → h ∉ pqHashes s.pq →
      h ∉ poppedTrace ctx n s := by
  intro n
  induction n with
  | zero => intro s h _ _ hmem; cases hmem
  | succ n ih =>
    intro s h hs hpq
    obtain ⟨pq, seen, bc, bco⟩ := s
    cases pq with
    | nil => intro hmem; cases hmem
    | cons e rest =>
      intro hmem
      simp only [poppedTrace] at hmem
      rcases List.mem_cons.mp hmem with rfl | hmem'
      · exact hpq (List.mem_map_of_mem Entry.hash (List.mem_cons_self e rest))
      · obtain ⟨hs', hpq'⟩ := tasoIter_stay_out ctx ⟨e :: rest, seen, bc, bco⟩ h hs hpq
        exact ih _ h hs' hpq' hmem'

/-- Under the dedup invariant, the popped hashes of a run are pairwise
distinct: no hash is processed twice. -/
theorem poppedTrace_nodup (ctx : TasoCtx) :
    ∀ (n : Nat) (s : TasoState), DedupInv s → (poppedTrace ctx n s).Nodup := by
  intro n
  induction n with
  | zero => intro s _; exact List.nodup_nil
  | succ n ih =>
    intro s hinv
    obtain ⟨pq, seen, bc, bco⟩ := s
    cases pq with
    | nil => exact List.nodup_nil
    | cons e rest =>
      have hinv' := tasoIter_dedupInv ctx ⟨e :: rest, seen, bc, bco⟩ hinv
      show (e.hash :: poppedTrace ctx n (tasoIter ctx ⟨e :: rest, seen, bc, bco⟩)).Nodup
      refine List.nodup_cons.mpr ⟨?_, ih _ hinv'⟩
      apply poppedTrace_out ctx n _ e.hash
      · exact tasoIter_seen_mono ctx _ (hinv.2 e (List.mem_cons_self e rest))
      · intro hin
        rcases List.mem_map.mp hin with ⟨e', he', heq⟩
        rcases tasoIter_pq_mem_cons ctx e rest seen bc bco e' he' with he'' | ⟨_, _, hns⟩
        · have hhead : e.hash ∉ pqHashes rest := by
            have := hinv.1
            rw [show pqHashes (e :: rest) = e.hash :: pqHashes rest from rfl] at this
            exact (List.nodup_cons.mp this).1
          exact hhead (heq ▸ List.mem_map_of_mem Entry.hash he'')
        · exact hns (heq.symm ▸ hinv.2 e (List.mem_cons_self e rest))

/-- The initial driver state satisfies the dedup invariant. -/
theorem tasoInit_dedupInv (ctx : TasoCtx) (c0 : Nat) :
    DedupInv (tasoInit ctx c0) := by
  constructor
  · exact List.nodup_singleton _
  · intro e he
    rcases List.mem_singleton.mp he with rfl
    exact Finset.mem_singleton_self _

/-- The initial driver state is well-formed. -/
theorem tasoInit_stateWF (ctx : TasoCtx) (c0 : Nat) :
    StateWF ctx (tasoInit ctx c0) := by
  constructor
  · intro e he
    rcases List.mem_singleton.mp he with rfl
    exact ⟨rfl, rfl⟩
  · rfl

theorem tasoIter_best_mono (ctx : TasoCtx) (s : TasoState) :
    (tasoIter ctx s).bestCost ≤ s.bestCost := by
  obtain ⟨pq, seen, bc, bco⟩ := s
  cases pq with
  | nil => exact le_refl _
  | cons e rest =>
    show (if e.cost < bco then (e.circ, e.cost) else (bc, bco)).2 ≤ bco
    split
    · exact le_of_lt (by assumption)
    · exact le_refl _

theorem tasoRun_best_mono (ctx : TasoCtx) :
    ∀ (n : Nat) (s : TasoState), (tasoRun ctx n s).bestCost ≤ s.bestCost := by
  intro n
  induction n with
  | zero => intro s; exact le_refl _
  | succ n ih =>
    intro s
    exact le_trans (ih (tasoIter ctx s)) (tasoIter_best_mono ctx s)

theorem tasoIter_stateWF (ctx : TasoCtx) (s : TasoState) :
    StateWF ctx s → StateWF ctx (tasoIter ctx s) := by
  intro ⟨hpq, hbest⟩
  obtain ⟨pq, seen, bc, bco⟩ := s
  cases pq with
  | nil => exact ⟨hpq, hbest⟩
  | cons e rest =>
    constructor
    · intro f hf
      rcases tasoIter_pq_mem_cons ctx e rest seen bc bco f hf with hf' | ⟨h1, h2, _⟩
      · exact hpq f (List.mem_cons_of_mem e hf')
      · exact ⟨h1, h2⟩
    · show (if e.cost < bco then (e.circ, e.cost) else (bc, bco)).2 =
        ctx.cost (if e.cost < bco then (e.circ, e.cost) else (bc, bco)).1
      split
      · exact (hpq e (List.mem_cons_self e rest)).2
      · exact hbest

theorem tasoRun_stateWF (ctx : TasoCtx) :
    ∀ (n : Nat) (s : TasoState), StateWF ctx s → StateWF ctx (tasoRun ctx n s) := by
  intro n
  induction n with
  | zero => intro s h; exact h
  | succ n ih => intro s h; exact ih (tasoIter ctx s) (tasoIter_stateWF ctx s h)

/-- Coordinator best-cost well-formedness. -/
def CoordWF (ctx : TasoCtx) (s : CoordState) : Prop :=
  s.bestCost = ctx.cost s.bestCirc

theorem coordItem_seen_mono (ctx : TasoCtx) (s : CoordState) (item : Nat × Nat) :
    s.seen ⊆ (coordItem ctx s item).seen := by
  unfold coordItem
  split
  · exact Finset.Subset.refl _
  · dsimp only
    split
    · exact Finset.subset_insert _ _
    · exact Finset.subset_insert _ _

theorem coordFold_seen_mono (ctx : TasoCtx) :
    ∀ (batch : List (Nat × Nat)) (s : CoordState),
      s.seen ⊆ (batch.foldl (coordItem ctx) s).seen := by
  intro batch
  induction batch with
  | nil => intro s; exact Finset.Subset.refl _
  | cons item rest ih =>
    intro s
    exact Finset.Subset.trans (coordItem_seen_mono ctx s item) (ih _)

theorem coordItem_best_mono (ctx : TasoCtx) (s : CoordState) (item : Nat × Nat) :
    (coordItem ctx s item).bestCost ≤ s.bestCost := by
  unfold coordItem
  split
  · exact le_refl _
  · dsimp only
    split
    · exact le_of_lt (by assumption)
    · exact le_refl _

theorem coordFold_best_mono (ctx : TasoCtx) :
    ∀ (batch : List (Nat × Nat)) (s : CoordState),
      (batch.foldl (coordItem ctx) s).bestCost ≤ s.bestCost := by
  intro batch
  induction batch with
  | nil => intro s; exact le_refl _
  | cons item rest ih =>
    intro s
    exact le_trans (ih _) (coordItem_best_mono ctx s item)

theorem coordItem_wf (ctx : TasoCtx) (s : CoordState) (item : Nat × Nat) :
    CoordWF ctx s → CoordWF ctx (coordItem ctx s item) := by
  intro h
  unfold coordItem
  split
  · exact h
  · dsimp only
    split
    · rfl
    · exact h

theorem coordFold_wf (ctx : TasoCtx) :
    ∀ (batch : List (Nat × Nat)) (s : CoordState),
      CoordWF ctx s → CoordWF ctx (batch.foldl (coordItem ctx) s) := by
  intro batch
  induction batch with
  | nil => intro s h; exact h
  | cons item rest ih =>
    intro s h
    exact ih _ (coordItem_wf ctx s item h)

theorem coordRun_best_mono (ctx : TasoCtx) :
    ∀ (batches : List (List (Nat × Nat))) (s : CoordState),
      (coordRun ctx batches s).bestCost ≤ s.bestCost := by
  intro batches
  induction batches with
  | nil => intro s; exact le_refl _
  | cons b rest ih =>
    intro s
    exact le_trans (ih _) (coordFold_best_mono ctx b s)

theorem coordRun_wf (ctx : TasoCtx) :
    ∀ (batches : List (List (Nat × Nat))) (s : CoordState),
      CoordWF ctx s → CoordWF ctx (coordRun ctx batches s) := by
  intro batches
  induction batches with
  | nil => intro s h; exact h
  | cons b rest ih =>
    intro s h
    exact ih _ (coordFold_wf ctx b s h)

/-- The queue order. -/
def pqSorted (pq : List Entry) : Prop := List.Sorted entryLE pq

theorem pqPush_sorted (f : Entry) (pq : List Entry) :
    pqSorted pq → pqSorted (pqPush f pq) := by
  intro h
  exact List.Sorted.orderedInsert f pq h

theorem expand_sorted (ctx : TasoCtx) :
    ∀ (cs : List Nat) (pq : List Entry) (seen : Finset Nat),
      pqSorted pq → pqSorted ((cs.foldl (processSucc ctx) (pq, seen)).1) := by
  intro cs
  induction cs with
  | nil => intro pq seen h; exact h
  | cons c rest ih =>
    intro pq seen h
    rw [List.foldl_cons]
    by_cases hmem : ctx.hash c ∈ seen
    · rw [show processSucc ctx (pq, seen) c = (pq, seen) by
        simp [processSucc, hmem]]
      exact ih pq seen h
    · rw [show processSucc ctx (pq, seen) c =
          (pqPush ⟨ctx.hash c, ctx.cost c, c⟩ pq, insert (ctx.hash c) seen) by
        simp [processSucc, hmem]]
      exact ih _ _ (pqPush_sorted _ pq h)

theorem haircut_sorted (pq : List Entry) :
    pqSorted pq → pqSorted (haircut pq) := by
  intro h
  unfold haircut
  split
  · exact List.Pairwise.sublist (List.take_sublist _ _) h
  · exact h

theorem tasoIter_sorted (ctx : TasoCtx) (s : TasoState) :
    pqSorted s.pq → pqSorted ((tasoIter ctx s).pq) := by
  obtain ⟨pq, seen, bc, bco⟩ := s
  cases pq with
  | nil => exact fun h => h
  | cons e rest =>
    intro h
    exact haircut_sorted _
      (expand_sorted ctx _ rest seen (List.sorted_cons.mp h).2)

theorem haircut_len_le (pq : List Entry) :
    (haircut pq).length ≤ PRIORITY_QUEUE_CAPACITY := by
  unfold haircut PRIORITY_QUEUE_CAPACITY
  split
  next hlen =>
    rw [List.length_take]
    omega
  next hlen =>
    omega

theorem tasoIter_len_le (ctx : TasoCtx) (s : TasoState) :
    ((tasoIter ctx s).pq).length ≤ PRIORITY_QUEUE_CAPACITY := by
  obtain ⟨pq, seen, bc, bco⟩ := s
  cases pq with
  | nil =>
    show ([] : List Entry).length ≤ PRIORITY_QUEUE_CAPACITY
    simp
  | cons e rest => exact haircut_len_le _

/-- A concrete driver context for witnesses: identity hash and cost, no
successors. -/
def ctx0 : TasoCtx := ⟨fun n => n, fun n => n, fun _ => []⟩

/-- A full queue (10,000 identical entries) for the haircut witness. -/
def bigPQ : List Entry := List.replicate PRIORITY_QUEUE_CAPACITY ⟨0, 0, 0⟩

theorem bigPQ_sorted : pqSorted bigPQ :=
  List.pairwise_replicate.mpr (Or.inr (le_refl 0))

/-! ### C1 — dedup invariant of the driver -/

/-- C1 counterexample: in the multi-threaded coordinator, with hash 5
already in the seen set, a received batch containing the circuit of hash
5 is still sent — whole — into the `work` channel (taso.rs:322), so the
driver does enqueue a circuit whose hash is already in the seen set. -/
theorem dedup_enqueue_cex :
    (5 : Nat) ∈ ({5} : Finset Nat) ∧
    (coordBatch ctx0 ⟨{5}, 0, 0⟩ [(5, 99)]).2 = [(5, 99)] :=
  ⟨Finset.mem_singleton_self 5, rfl⟩

/-- C1 (amended): in both modes the seen set only grows.  In the
single-threaded loop no hash is popped (processed) twice and a successor
is pushed only when its hash is not in the seen set.  In the
multi-threaded coordinator, an already-seen hash is skipped (no
best-cost processing), but the whole received batch — including
circuits whose hashes are already in the seen set — is forwarded into
the work channel. -/
theorem dedup_invariant :
    ∀ ctx : TasoCtx,
      (∀ s : TasoState, s.seen ⊆ (tasoIter ctx s).seen) ∧
      (∀ s : TasoState, DedupInv s → ∀ n, (poppedTrace ctx n s).Nodup) ∧
      (∀ c0 n, (poppedTrace ctx n (tasoInit ctx c0)).Nodup) ∧
      (∀ (s : TasoState) (e : Entry), e ∈ (tasoIter ctx s).pq →
        e ∈ s.pq ∨ e.hash ∉ s.seen) ∧
      (∀ (pq : List Entry) (seen : Finset Nat) (c : Nat),
        ctx.hash c ∈ seen → processSucc ctx (pq, seen) c = (pq, seen)) ∧
      (∀ (s : CoordState) (batch : List (Nat × Nat)),
        s.seen ⊆ ((coordBatch ctx s batch).1).seen) ∧
      (∀ (s : CoordState) (batch : List (Nat × Nat)),
        (coordBatch ctx s batch).2 = batch) ∧
      (∀ (s : CoordState) (h c : Nat), h ∈ s.seen →
        coordItem ctx s (h, c) = s) := by
  intro ctx
  refine ⟨tasoIter_seen_mono ctx, ?_, ?_, ?_, ?_, ?_, fun s batch => rfl, ?_⟩
  · intro s hinv n
    exact poppedTrace_nodup ctx n s hinv
  · intro c0 n
    exact poppedTrace_nodup ctx n _ (tasoInit_dedupInv ctx c0)
  · intro s e he
    rcases tasoIter_pq_mem ctx s e he with h | ⟨_, _, h⟩
    · exact Or.inl h
    · exact Or.inr h
  · intro pq seen c hmem
    simp [processSucc, hmem]
  · intro s batch
    exact coordFold_seen_mono ctx batch s
  · intro s h c hmem
    simp [coordItem, hmem]

/-- C1 witness: the amended dedup facts evaluated on a concrete driver
context: a two-iteration run from the initial state pops distinct hashes,
and an already-seen batch item leaves the coordinator state unchanged. -/
theorem dedup_invariant_witness :
    (poppedTrace ctx0 2 (tasoInit ctx0 5)).Nodup ∧
    coordItem ctx0 ⟨{5}, 0, 0⟩ (5, 99) = ⟨{5}, 0, 0⟩ :=
  ⟨(dedup_invariant ctx0).2.1 (tasoInit ctx0 5) (tasoInit_dedupInv ctx0 5) 2,
   (dedup_invariant ctx0).2.2.2.2.2.2.2 ⟨{5}, 0, 0⟩ 5 99
     (Finset.mem_singleton_self 5)⟩

/-! ### C6 — monotone best -/

/-- C6: the best-so-far cost starts at the input circuit's cost, is
updated only on strict improvement, and is non-increasing along any run
of either mode; the best circuit's cost always equals the best cost, so
the returned circuit's cost is at most the input circuit's cost. -/
theorem monotone_best :
    ∀ ctx : TasoCtx,
      (∀ s : TasoState, (tasoIter ctx s).bestCost ≤ s.bestCost) ∧
      (∀ (n : Nat) (s : TasoState), (tasoRun ctx n s).bestCost ≤ s.bestCost) ∧
      (∀ (s : CoordState) (batch : List (Nat × Nat)),
        ((coordBatch ctx s batch).1).bestCost ≤ s.bestCost) ∧
      (∀ (batches : List (List (Nat × Nat))) (s : CoordState),
        (coordRun ctx batches s).bestCost ≤ s.bestCost) ∧
      (∀ c0 : Nat, (tasoInit ctx c0).bestCost = ctx.cost c0 ∧
        (coordInit ctx c0).bestCost = ctx.cost c0) ∧
      (∀ (c0 n : Nat),
        ctx.cost ((tasoRun ctx n (tasoInit ctx c0)).bestCirc) =
          (tasoRun ctx n (tasoInit ctx c0)).bestCost ∧
        (tasoRun ctx n (tasoInit ctx c0)).bestCost ≤ ctx.cost c0) ∧
      (∀ (c0 : Nat) (batches : List (List (Nat × Nat))),
        ctx.cost ((coordRun ctx batches (coordInit ctx c0)).bestCirc) =
          (coordRun ctx batches (coordInit ctx c0)).bestCost ∧
        (coordRun ctx batches (coordInit ctx c0)).bestCost ≤ ctx.cost c0) := by
  intro ctx
  refine ⟨tasoIter_best_mono ctx, tasoRun_best_mono ctx,
    fun s batch => coordFold_best_mono ctx batch s, coordRun_best_mono ctx,
    fun c0 => ⟨rfl, rfl⟩, ?_, ?_⟩
  · intro c0 n
    have hwf := tasoRun_stateWF ctx n _ (tasoInit_stateWF ctx c0)
    exact ⟨hwf.2.symm, tasoRun_best_mono ctx n _⟩
  · intro c0 batches
    have hwf := coordRun_wf ctx batches _ (rfl : CoordWF ctx (coordInit ctx c0))
    exact ⟨hwf.symm, coordRun_best_mono ctx batches _⟩

/-! ### C7 — haircut bound -/

theorem haircut_eq_take (pq : List Entry)
    (h : PRIORITY_QUEUE_CAPACITY ≤ pq.length) :
    haircut pq = pq.take (PRIORITY_QUEUE_CAPACITY / 2) := by
  unfold haircut
  rw [if_pos h]

/-- C7: with `PRIORITY_QUEUE_CAPACITY = 10,000`, after each iteration of
the single-threaded loop the queue holds at most the capacity; the
haircut triggers exactly when the queue length has reached the capacity,
truncating it to capacity/2, and (the queue being cost-sorted, an
invariant the loop preserves) the kept half is the cheapest half. -/
theorem haircut_bound :
    PRIORITY_QUEUE_CAPACITY = 10000 ∧
    (∀ (ctx : TasoCtx) (s : TasoState),
      ((tasoIter ctx s).pq).length ≤ PRIORITY_QUEUE_CAPACITY) ∧
    (∀ pq : List Entry, PRIORITY_QUEUE_CAPACITY ≤ pq.length →
      haircut pq = pq.take (PRIORITY_QUEUE_CAPACITY / 2)) ∧
    (∀ pq : List Entry, pq.length < PRIORITY_QUEUE_CAPACITY →
      haircut pq = pq) ∧
    (∀ (ctx : TasoCtx) (s : TasoState),
      pqSorted s.pq → pqSorted ((tasoIter ctx s).pq)) ∧
    (∀ pq : List Entry, pqSorted pq → PRIORITY_QUEUE_CAPACITY ≤ pq.length →
      ∀ x ∈ haircut pq, ∀ y ∈ pq.drop (PRIORITY_QUEUE_CAPACITY / 2),
        x.cost ≤ y.cost) := by
  refine ⟨rfl, tasoIter_len_le, haircut_eq_take, ?_, tasoIter_sorted, ?_⟩
  · intro pq h
    unfold haircut
    rw [if_neg (not_le.mpr h)]
  · intro pq hs hlen x hx y hy
    rw [haircut_eq_take pq hlen] at hx
    have hp : List.Pairwise entryLE
        (pq.take (PRIORITY_QUEUE_CAPACITY / 2) ++
          pq.drop (PRIORITY_QUEUE_CAPACITY / 2)) := by
      rw [List.take_append_drop]
      exact hs
    exact (List.pairwise_append.mp hp).2.2 x hx y hy

/-- C7 witness: the haircut facts evaluated at a full queue of 10,000
entries and at the empty queue. -/
theorem haircut_bound_witness :
    haircut bigPQ = bigPQ.take (PRIORITY_QUEUE_CAPACITY / 2) ∧
    haircut ([] : List Entry) = [] ∧
    pqSorted ((tasoIter ctx0 ⟨[], ∅, 0, 0⟩).pq) ∧
    ∀ x ∈ haircut bigPQ, ∀ y ∈ bigPQ.drop (PRIORITY_QUEUE_CAPACITY / 2),
      x.cost ≤ y.cost := by
  have hlen : PRIORITY_QUEUE_CAPACITY ≤ bigPQ.length := by
    simp [bigPQ]
  exact ⟨haircut_bound.2.2.1 bigPQ hlen,
    haircut_bound.2.2.2.1 [] (by decide),
    haircut_bound.2.2.2.2.1 ctx0 ⟨[], ∅, 0, 0⟩ List.sorted_nil,
    haircut_bound.2.2.2.2.2 bigPQ bigPQ_sorted hlen⟩

end Tket2
